import Mathlib

/-!
Verification of the test-time-adaptation evaluation driver (`test_time.py`,
function `evaluate`) and the loss library (`utils/losses.py`).

The driver is embedded as a pure state-passing interpreter over an abstract
external world `σ` (the adaptation model together with everything
`get_accuracy` touches).  The two external effectful calls of the loop body,
`get_test_loader` and `get_accuracy`, are modelled by an instrumentation log
and an oracle `σ → Except PyErr (ℚ × σ)`; `model.reset()` is modelled by a
function `σ → Except PyErr σ`.  Python exceptions are modelled by the
`Except` monad; an `IndexError` is raised exactly where the Python list
indexing `domain_seq_loop[i_dom]` is out of range, and a
`ZeroDivisionError` exactly where Python divides by a length that is zero.

The loss functions delegate `exp`, `log` and the rational power `**` to the
external tensor library; those three primitives are abstracted as parameter
functions (`ex`, `lg`, `pw`).  All claimed properties of the losses are
identities that hold for every choice of these primitives, which keeps every
definition computable.  Tensors of shape `(batch, classes)` are embedded as
`List (List ℚ)` (lists of rows).
-/

namespace TTA

/-! ### String helpers: Python's `sub in s` substring test -/

/-- Boolean list-prefix test used to embed Python's substring operator. -/
def isPrefixB : List Char → List Char → Bool
  | [], _ => true
  | _ :: _, [] => false
  | a :: as, b :: bs => a == b && isPrefixB as bs

/-- Does `p` occur as a contiguous sublist of `s`? -/
def hasSub (p : List Char) : List Char → Bool
  | [] => isPrefixB p []
  | c :: rest => isPrefixB p (c :: rest) || hasSub p rest

/-- Python's `pat in s` on strings. -/
def containsStr (pat s : String) : Bool := hasSub pat.data s.data

/-! ### Embedding of `utils/losses.py` -/

/-- Row softmax: `logits.softmax(1)` applied to one row, with the tensor
library's exponential abstracted as `ex`. -/
def softmaxRow (ex : ℚ → ℚ) (v : List ℚ) : List ℚ :=
  v.map (fun z => ex z / (v.map ex).sum)

/-- Row log-softmax: `logits.log_softmax(1)` on one row; mathematically the
logarithm (abstracted as `lg`) of the softmax. -/
def logSoftmaxRow (ex lg : ℚ → ℚ) (v : List ℚ) : List ℚ :=
  (softmaxRow ex v).map lg

/-- Elementwise product of two rows followed by `.sum(1)`. -/
def dotQ (u v : List ℚ) : ℚ := (List.zipWith (· * ·) u v).sum

/-- `class Entropy(nn.Module)`: it has no constructor parameters. -/
structure Entropy where

/-- `Entropy.__call__`: `-(logits.softmax(1) * logits.log_softmax(1)).sum(1)`. -/
def Entropy.call (ex lg : ℚ → ℚ) (_m : Entropy) (logits : List (List ℚ)) : List ℚ :=
  logits.map (fun row => -(dotQ (softmaxRow ex row) (logSoftmaxRow ex lg row)))

/-- `class SymmetricCrossEntropy(nn.Module)`: constructor stores `alpha`. -/
structure SymmetricCrossEntropy where
  alpha : ℚ

/-- `SymmetricCrossEntropy.__call__`:
`-(1-alpha)*(x_ema.softmax(1)*x.log_softmax(1)).sum(1) - alpha*(x.softmax(1)*x_ema.log_softmax(1)).sum(1)`. -/
def SymmetricCrossEntropy.call (ex lg : ℚ → ℚ) (m : SymmetricCrossEntropy)
    (x xEma : List (List ℚ)) : List ℚ :=
  List.zipWith (fun xi ei =>
    -(1 - m.alpha) * dotQ (softmaxRow ex ei) (logSoftmaxRow ex lg xi)
      - m.alpha * dotQ (softmaxRow ex xi) (logSoftmaxRow ex lg ei)) x xEma

/-- `class AugCrossEntropy(nn.Module)`: constructor stores `alpha`. -/
structure AugCrossEntropy where
  alpha : ℚ

/-- `AugCrossEntropy.__call__`:
`-(1-alpha)*(x.softmax(1)*x_ema.log_softmax(1)).sum(1) - alpha*(x_aug.softmax(1)*x_ema.log_softmax(1)).sum(1)`. -/
def AugCrossEntropy.call (ex lg : ℚ → ℚ) (m : AugCrossEntropy)
    (x xAug xEma : List (List ℚ)) : List ℚ :=
  List.zipWith (fun xa ei =>
    -(1 - m.alpha) * dotQ (softmaxRow ex xa.1) (logSoftmaxRow ex lg ei)
      - m.alpha * dotQ (softmaxRow ex xa.2) (logSoftmaxRow ex lg ei)) (x.zip xAug) xEma

/-- `torch.clamp(x, min=0.0, max=clip)` on one entry. -/
def clampQ (clip p : ℚ) : ℚ := min (max p 0) clip

/-- `class SoftLikelihoodRatio(nn.Module)`: constructor stores `clip` and `eps`. -/
structure SoftLikelihoodRatio where
  clip : ℚ
  eps : ℚ

/-- `SoftLikelihoodRatio.__call__`: clamp the softmax probabilities to
`[0, clip]` and return `-(probs * log(probs/(1-probs) + eps)).sum(1)`. -/
def SoftLikelihoodRatio.call (ex lg : ℚ → ℚ) (m : SoftLikelihoodRatio)
    (logits : List (List ℚ)) : List ℚ :=
  logits.map (fun row =>
    let probs := (softmaxRow ex row).map (clampQ m.clip);
    -((probs.map (fun p => p * lg (p / (1 - p) + m.eps))).sum))

/-- Index of the first maximal entry of a row (`argmax(dim=1)` on one row). -/
def argmaxIdx (v : List ℚ) : ℕ :=
  (v.foldl (fun best p =>
    (best.1 + 1, if p > best.2.2 then (best.1, p) else best.2)) (0, 0, v.headD 0)).2.1

/-- `class GeneralizedCrossEntropy(nn.Module)`: constructor stores `q`. -/
structure GeneralizedCrossEntropy where
  q : ℚ

/-- `GeneralizedCrossEntropy.__call__`: with the tensor power `**` abstracted
as `pw`, compute `(1 - probs[i, t_i] ** q) / q` where `t` is the given target
vector, defaulting to the per-row argmax of the probabilities. -/
def GeneralizedCrossEntropy.call (ex : ℚ → ℚ) (pw : ℚ → ℚ → ℚ)
    (m : GeneralizedCrossEntropy) (logits : List (List ℚ)) (targets? : Option (List ℕ)) :
    List ℚ :=
  let probs := logits.map (softmaxRow ex)
  let targets := match targets? with
    | none => probs.map argmaxIdx
    | some t => t
  (List.zipWith (fun row t => row.getD t 0) probs targets).map
    (fun p => (1 - pw p m.q) / m.q)

/-- The literal `1e-16` added inside the logarithms of `entropy_loss` and
`diversity_loss`. -/
def qeps : ℚ := 1 / 10 ^ 16

/-- `entropy_loss(probs)`: `(-torch.sum(probs * log(probs + 1e-16), dim=1)).mean()`. -/
def entropy_loss (lg : ℚ → ℚ) (probs : List (List ℚ)) : ℚ :=
  let ent := probs.map (fun row => -((row.map (fun p => p * lg (p + qeps))).sum))
  ent.sum / ent.length

/-- `ensemble_probs.mean(dim=0)`: the column means of a rectangular tensor. -/
def meanDim0 (p : List (List ℚ)) : List ℚ :=
  (List.range (p.headD []).length).map
    (fun c => (p.map (fun row => row.getD c 0)).sum / p.length)

/-- `diversity_loss(ensemble_probs)`:
`-torch.sum(mean_probs * log(mean_probs + 1e-16))` for `mean_probs = ensemble_probs.mean(dim=0)`. -/
def diversity_loss (lg : ℚ → ℚ) (ensembleProbs : List (List ℚ)) : ℚ :=
  let meanProbs := meanDim0 ensembleProbs;
  -((meanProbs.map (fun m => m * lg (m + qeps))).sum)

/-- `info_max_loss(probs)`: `entropy_loss(probs) - diversity_loss(probs)`. -/
def info_max_loss (lg : ℚ → ℚ) (probs : List (List ℚ)) : ℚ :=
  entropy_loss lg probs - diversity_loss lg probs

/-- `orthogonal_loss(prototypes)`: `torch.mm(P, P.t()).pow(2).sum() / (n*(n-1))`
for `n = prototypes.size(0)` (rows are already flat, matching `view(n, -1)` on
a 2-D input).  The division is by the Python integer `n*(n-1)`; when that
integer is zero the float quotient is not a finite number, which the embedding
represents as `none`. -/
def orthogonal_loss (prototypes : List (List ℚ)) : Option ℚ :=
  let n := prototypes.length
  let denom : ℤ := (n : ℤ) * ((n : ℤ) - 1)
  let gram2 := (prototypes.map (fun pi => (prototypes.map (fun pj => dotQ pi pj ^ 2)).sum)).sum
  if denom = 0 then none else some (gram2 / (denom : ℚ))

/-! ### Embedding of `test_time.py` : the `evaluate` driver -/

/-- The Python exceptions that the driver can raise or observe. -/
inductive PyErr where
  | assertionError
  | indexError
  | zeroDivisionError
  | attributeError
  | other (msg : String)
  deriving DecidableEq, Repr

/-- Identification of one loop iteration: subgroup index (0..4), cycle
(0 or 1), domain index `i_dom`, and severity. -/
abbrev Key := ℕ × ℕ × ℕ × ℕ

/-- Instrumentation record of one `get_accuracy` call of the main loop. -/
structure CallRec where
  sg : ℕ
  cyc : ℕ
  iDom : ℕ
  dom : String
  sev : ℕ
  acc : ℚ
  deriving DecidableEq, Repr

/-- Instrumentation record of one `get_accuracy` call of the
`continual_mixed_domain` tail block (domain name is always `"mixed"` there). -/
structure TailRec where
  sev : ℕ
  acc : ℚ
  deriving DecidableEq, Repr

/-- `(sg, cyc, iDom, sev)` of a main-loop record. -/
def keyOf (r : CallRec) : Key := (r.sg, r.cyc, r.iDom, r.sev)

/-- The error recorded for a call: `err = 1. - acc`. -/
def errOf (r : CallRec) : ℚ := 1 - r.acc

/-- The error recorded for a tail call: `err = 1. - acc`. -/
def terrOf (r : TailRec) : ℚ := 1 - r.acc

/-- The `errs_5` condition of the main loop:
`severity == 5 and domain_name != "none"`. -/
def sev5p (r : CallRec) : Bool := r.sev == 5 && r.dom != "none"

/-- The `errs_5` condition of the tail block, where `domain_name = "mixed"`. -/
def tsev5p (r : TailRec) : Bool := r.sev == 5 && "mixed" != "none"

/-- Mutable state of the driver: the external world plus every flat numeric
container of `evaluate`, and the instrumentation logs. -/
structure St (σ : Type) where
  mdl : σ
  errs : List ℚ
  errs5 : List ℚ
  loaderLog : List Key
  recs : List CallRec
  cycLog : List (List ℚ)
  cycAvgs : List ℚ
  sgCycAvgs : List (List ℚ)
  sgAvgs : List ℚ
  c1Avgs : List ℚ
  c2Avgs : List ℚ
  tailLoad : List ℕ
  tailRecs : List TailRec
  deriving Repr

/-- Initial driver state. -/
def initSt {σ : Type} (m : σ) : St σ :=
  ⟨m, [], [], [], [], [], [], [], [], [], [], [], []⟩

/-- A propagated Python exception together with the state at the raise site. -/
structure Fail (σ : Type) where
  err : PyErr
  st : St σ

/-- Result record of a completed run: final state, the two per-cycle means
across all subgroups, and the total average error. -/
structure DriverOut (σ : Type) where
  st : St σ
  cycMeans : List ℚ
  totalAvg : ℚ

/-- `sum(l) / len(l)`, the arithmetic mean as Python computes it. -/
def mean (l : List ℚ) : ℚ := l.sum / l.length

/-- The list of valid settings from `test_time.py`. -/
def validSettings : List String :=
  ["reset_each_shift", "continual", "gradual", "mixed_domains", "correlated",
   "mixed_domains_correlated", "gradual_correlated", "reset_each_shift_correlated",
   "continual_mixed_domain"]

/-- `assert cfg.SETTING in valid_settings`. -/
def settingValid (s : String) : Bool := validSettings.contains s

/-- `domain_seq_loop = ["mixed"] if "mixed_domains" in cfg.SETTING else domain_sequence`. -/
def domainSeqLoop (setting : String) (domainSequence : List String) : List String :=
  if containsStr "mixed_domains" setting then ["mixed"] else domainSequence

/-- The gradual-severity override:
`[1,2,3,4,5,4,3,2,1]` when `"gradual" in setting`, the dataset is one of the
three corruption datasets and exactly one severity is configured; otherwise
`cfg.CORRUPTION.SEVERITY`. -/
def severitiesFor (setting dataset : String) (sevCfg : List ℕ) : List ℕ :=
  if containsStr "gradual" setting
      && (["cifar10_c", "cifar100_c", "imagenet_c"].contains dataset)
      && sevCfg.length == 1
  then [1, 2, 3, 4, 5, 4, 3, 2, 1] else sevCfg

/-- `range(a, b)` as a list. -/
def pyRange (a b : ℕ) : List ℕ := (List.range (b - a)).map (a + ·)

/-- The five fixed subgroups `range(0,3), range(3,7), range(7,10), range(10,12), range(12,15)`
as `(start, stop)` pairs. -/
def subgroupsDef : List (ℕ × ℕ) := [(0, 3), (3, 7), (7, 10), (10, 12), (12, 15)]

/-- An oracle that never raises, built from a total accuracy function. -/
def okOracle {σ : Type} (f : σ → ℚ × σ) : σ → Except PyErr (ℚ × σ) :=
  fun s => .ok (f s)

/-- A `model.reset` that never raises, built from a total reset function. -/
def okReset {σ : Type} (g : σ → σ) : σ → Except PyErr σ :=
  fun s => .ok (g s)

/-- The innermost loop `for severity in severities`: log the
`get_test_loader` call, call `get_accuracy`, record `err = 1 - acc` into
`errs`, the current cycle list, and conditionally `errs_5`. -/
def runSevs {σ : Type} (oracle : σ → Except PyErr (ℚ × σ)) (sg cyc iDom : ℕ) (d : String) :
    List ℕ → St σ → List ℚ → Except (Fail σ) (St σ × List ℚ)
  | [], st, ce => .ok (st, ce)
  | v :: vs, st, ce =>
    match oracle st.mdl with
    | .error e => .error ⟨e, { st with loaderLog := st.loaderLog ++ [(sg, cyc, iDom, v)] }⟩
    | .ok p =>
      let er : ℚ := 1 - p.1
      let r : CallRec := ⟨sg, cyc, iDom, d, v, p.1⟩
      runSevs oracle sg cyc iDom d vs
        { st with mdl := p.2,
                  loaderLog := st.loaderLog ++ [(sg, cyc, iDom, v)],
                  recs := st.recs ++ [r],
                  errs := st.errs ++ [er],
                  errs5 := if v == 5 && d != "none" then st.errs5 ++ [er] else st.errs5 }
        (ce ++ [er])

/-- The loop `for i_dom in subgroup`: Python raises `IndexError` when
`domain_seq_loop[i_dom]` is out of range. -/
def runDoms {σ : Type} (oracle : σ → Except PyErr (ℚ × σ)) (dsl : List String)
    (sevs : List ℕ) (sg cyc : ℕ) :
    List ℕ → St σ → List ℚ → Except (Fail σ) (St σ × List ℚ)
  | [], st, ce => .ok (st, ce)
  | i :: rest, st, ce =>
    match dsl[i]? with
    | none => .error ⟨.indexError, st⟩
    | some d =>
      match runSevs oracle sg cyc i d sevs st ce with
      | .error f => .error f
      | .ok pr => runDoms oracle dsl sevs sg cyc rest pr.1 pr.2

/-- The loop `for cycle in range(2)`: run the domains of the subgroup, then
compute `cycle_avg = sum(cycle_errs)/len(cycle_errs)` (a `ZeroDivisionError`
when the cycle recorded nothing) and store it in the three average
containers. -/
def runCycles {σ : Type} (oracle : σ → Except PyErr (ℚ × σ)) (dsl : List String)
    (sevs : List ℕ) (sg : ℕ) (doms : List ℕ) :
    List ℕ → St σ → List ℚ → Except (Fail σ) (St σ × List ℚ)
  | [], st, sce => .ok (st, sce)
  | cyc :: rest, st, sce =>
    match runDoms oracle dsl sevs sg cyc doms st [] with
    | .error f => .error f
    | .ok pr =>
      if pr.2.length = 0 then .error ⟨.zeroDivisionError, pr.1⟩
      else
        let avg := mean pr.2
        runCycles oracle dsl sevs sg doms rest
          { pr.1 with cycLog := pr.1.cycLog ++ [pr.2],
                      cycAvgs := pr.1.cycAvgs ++ [avg],
                      c1Avgs := if cyc == 0 then pr.1.c1Avgs ++ [avg] else pr.1.c1Avgs,
                      c2Avgs := if cyc == 1 then pr.1.c2Avgs ++ [avg] else pr.1.c2Avgs }
          (sce ++ [avg])

/-- The `try: model.reset() except AttributeError` block at the start of each
subgroup: an `AttributeError` is swallowed and the model state is unchanged;
every other exception propagates. -/
def applyReset {σ : Type} (reset : σ → Except PyErr σ) (st : St σ) :
    Except (Fail σ) (St σ) :=
  match reset st.mdl with
  | .ok m' => .ok { st with mdl := m' }
  | .error .attributeError => .ok st
  | .error e => .error ⟨e, st⟩

/-- One subgroup: reset, two cycles, then
`subgroup_avg = sum(subgroup_cycle_errs)/len(subgroup_cycle_errs)`. -/
def runSubgroup {σ : Type} (oracle : σ → Except PyErr (ℚ × σ))
    (reset : σ → Except PyErr σ) (dsl : List String) (sevs : List ℕ)
    (sg a b : ℕ) (st : St σ) : Except (Fail σ) (St σ) :=
  match applyReset reset st with
  | .error f => .error f
  | .ok st1 =>
    match runCycles oracle dsl sevs sg (pyRange a b) (List.range 2) st1 [] with
    | .error f => .error f
    | .ok pr =>
      if pr.2.length = 0 then .error ⟨.zeroDivisionError, pr.1⟩
      else .ok { pr.1 with sgCycAvgs := pr.1.sgCycAvgs ++ [pr.2],
                           sgAvgs := pr.1.sgAvgs ++ [mean pr.2] }

/-- The loop `for subgroup in subgroups` over the enumerated subgroup list. -/
def runSubgroups {σ : Type} (oracle : σ → Except PyErr (ℚ × σ))
    (reset : σ → Except PyErr σ) (dsl : List String) (sevs : List ℕ) :
    List (ℕ × ℕ × ℕ) → St σ → Except (Fail σ) (St σ)
  | [], st => .ok st
  | (sg, a, b) :: rest, st =>
    match runSubgroup oracle reset dsl sevs sg a b st with
    | .error f => .error f
    | .ok st' => runSubgroups oracle reset dsl sevs rest st'

/-- The extra `continual_mixed_domain` block after the main loop: one more
pass over the severities with `domain_name = 'mixed'`, appending to `errs`
and conditionally to `errs_5`, with no cycle bookkeeping. -/
def runTail {σ : Type} (oracle : σ → Except PyErr (ℚ × σ)) :
    List ℕ → St σ → Except (Fail σ) (St σ)
  | [], st => .ok st
  | v :: vs, st =>
    match oracle st.mdl with
    | .error e => .error ⟨e, { st with tailLoad := st.tailLoad ++ [v] }⟩
    | .ok p =>
      let er : ℚ := 1 - p.1
      runTail oracle vs
        { st with mdl := p.2,
                  tailLoad := st.tailLoad ++ [v],
                  tailRecs := st.tailRecs ++ [⟨v, p.1⟩],
                  errs := st.errs ++ [er],
                  errs5 := if v == 5 && "mixed" != "none" then st.errs5 ++ [er] else st.errs5 }

/-- The enumerated subgroup list `[(0,(0,3)), (1,(3,7)), ...]`. -/
def subgroupsEnum : List (ℕ × ℕ × ℕ) :=
  [(0, 0, 3), (1, 3, 7), (2, 7, 10), (3, 10, 12), (4, 12, 15)]

/-- The `evaluate` driver of `test_time.py`, abstracted over the external
world: validate the setting, derive `domain_seq_loop` and `severities`, run
the five subgroups, compute the reported aggregates, and finally run the
`continual_mixed_domain` tail block when applicable. -/
def evaluate {σ : Type} (setting dataset : String) (domainSequence : List String)
    (sevCfg : List ℕ) (oracle : σ → Except PyErr (ℚ × σ))
    (reset : σ → Except PyErr σ) (m0 : σ) : Except (Fail σ) (DriverOut σ) :=
  if settingValid setting then
    let dsl := domainSeqLoop setting domainSequence
    let sevs := severitiesFor setting dataset sevCfg
    match runSubgroups oracle reset dsl sevs subgroupsEnum (initSt m0) with
    | .error f => .error f
    | .ok st =>
      let cycMeans := [mean st.c1Avgs, mean st.c2Avgs]
      let totalAvg := mean st.sgAvgs
      if setting == "continual_mixed_domain" then
        match runTail oracle sevs st with
        | .error f => .error f
        | .ok st' => .ok ⟨st', cycMeans, totalAvg⟩
      else .ok ⟨st, cycMeans, totalAvg⟩
  else .error ⟨.assertionError, initSt m0⟩

/-- The iteration plan the claims describe: for each enumerated subgroup, for
each of two cycles, for each domain index of the subgroup in increasing
order, for each severity of the configured sequence in order. -/
def planKeys (sevs : List ℕ) : List Key :=
  subgroupsEnum.flatMap (fun p =>
    (List.range 2).flatMap (fun cyc =>
      (pyRange p.2.1 p.2.2).flatMap (fun i =>
        sevs.map (fun v => (p.1, cyc, i, v)))))

/-! ### Characterization of a run with a non-raising oracle -/

theorem runSevs_ok {σ : Type} (f : σ → ℚ × σ) (sg cyc iDom : ℕ) (d : String) :
    ∀ (sevs : List ℕ) (st : St σ) (ce : List ℚ),
    ∃ (δ : List CallRec) (m' : σ),
      runSevs (okOracle f) sg cyc iDom d sevs st ce =
        .ok ({ st with
                 mdl := m',
                 loaderLog := st.loaderLog ++ sevs.map (fun v => (sg, cyc, iDom, v)),
                 recs := st.recs ++ δ,
                 errs := st.errs ++ δ.map errOf,
                 errs5 := st.errs5 ++ (δ.filter sev5p).map errOf }, ce ++ δ.map errOf) ∧
      δ.map keyOf = sevs.map (fun v => (sg, cyc, iDom, v)) := by
  intro sevs
  induction sevs with
  | nil => intro st ce; exact ⟨[], st.mdl, by simp [runSevs], rfl⟩
  | cons v vs ih =>
    intro st ce
    obtain ⟨δ, m', heq, hkeys⟩ := ih
      { st with mdl := (f st.mdl).2,
                loaderLog := st.loaderLog ++ [(sg, cyc, iDom, v)],
                recs := st.recs ++ [⟨sg, cyc, iDom, d, v, (f st.mdl).1⟩],
                errs := st.errs ++ [1 - (f st.mdl).1],
                errs5 := if v == 5 && d != "none" then st.errs5 ++ [1 - (f st.mdl).1]
                         else st.errs5 }
      (ce ++ [1 - (f st.mdl).1])
    refine ⟨⟨sg, cyc, iDom, d, v, (f st.mdl).1⟩ :: δ, m', ?_, ?_⟩
    · simp only [runSevs, okOracle]
      rw [heq]
      by_cases h5 : (v == 5 && d != "none") = true <;>
        simp [sev5p, errOf, List.filter_cons, h5, List.append_assoc]
    · simp [keyOf, hkeys]

/-- The keys generated by one cycle `cyc` of subgroup `sg` over domain
indices `doms`. -/
def cycKeys (sg cyc : ℕ) (doms : List ℕ) (sevs : List ℕ) : List Key :=
  doms.flatMap (fun i => sevs.map (fun v => (sg, cyc, i, v)))

theorem runDoms_ok {σ : Type} (f : σ → ℚ × σ) (dsl : List String) (sevs : List ℕ)
    (sg cyc : ℕ) :
    ∀ (doms : List ℕ) (st : St σ) (ce : List ℚ),
    (∀ i ∈ doms, i < dsl.length) →
    ∃ (δ : List CallRec) (m' : σ),
      runDoms (okOracle f) dsl sevs sg cyc doms st ce =
        .ok ({ st with
                 mdl := m',
                 loaderLog := st.loaderLog ++ cycKeys sg cyc doms sevs,
                 recs := st.recs ++ δ,
                 errs := st.errs ++ δ.map errOf,
                 errs5 := st.errs5 ++ (δ.filter sev5p).map errOf }, ce ++ δ.map errOf) ∧
      δ.map keyOf = cycKeys sg cyc doms sevs := by
  intro doms
  induction doms with
  | nil => intro st ce _; exact ⟨[], st.mdl, by simp [runDoms, cycKeys], by simp [cycKeys]⟩
  | cons i rest ih =>
    intro st ce hlt
    have hi : i < dsl.length := hlt i (List.mem_cons_self i rest)
    have hd : dsl[i]? = some dsl[i] := List.getElem?_eq_getElem hi
    obtain ⟨δ₁, m₁, heq₁, hk₁⟩ := runSevs_ok f sg cyc i dsl[i] sevs st ce
    obtain ⟨δ₂, m₂, heq₂, hk₂⟩ := ih
      { st with
          mdl := m₁,
          loaderLog := st.loaderLog ++ sevs.map (fun v => (sg, cyc, i, v)),
          recs := st.recs ++ δ₁,
          errs := st.errs ++ δ₁.map errOf,
          errs5 := st.errs5 ++ (δ₁.filter sev5p).map errOf }
      (ce ++ δ₁.map errOf)
      (fun j hj => hlt j (List.mem_cons_of_mem i hj))
    refine ⟨δ₁ ++ δ₂, m₂, ?_, ?_⟩
    · simp only [runDoms, hd, heq₁]
      rw [heq₂]
      simp [cycKeys, List.append_assoc, List.filter_append]
    · simp [cycKeys, hk₁, hk₂, List.flatMap_cons]

theorem cycKeys_ne_nil (sg cyc : ℕ) {doms sevs : List ℕ}
    (hd : doms ≠ []) (hs : sevs ≠ []) : cycKeys sg cyc doms sevs ≠ [] := by
  cases doms with
  | nil => exact absurd rfl hd
  | cons i rest =>
    cases sevs with
    | nil => exact absurd rfl hs
    | cons v vs => simp [cycKeys]

theorem runCycles2_ok {σ : Type} (f : σ → ℚ × σ) (dsl : List String) (sevs : List ℕ)
    (sg : ℕ) (doms : List ℕ) (st : St σ)
    (hlt : ∀ i ∈ doms, i < dsl.length) (hd : doms ≠ []) (hs : sevs ≠ []) :
    ∃ (δ₀ δ₁ : List CallRec) (m' : σ),
      runCycles (okOracle f) dsl sevs sg doms (List.range 2) st [] =
        .ok ({ st with
                 mdl := m',
                 loaderLog := st.loaderLog ++ cycKeys sg 0 doms sevs ++ cycKeys sg 1 doms sevs,
                 recs := st.recs ++ δ₀ ++ δ₁,
                 errs := st.errs ++ δ₀.map errOf ++ δ₁.map errOf,
                 errs5 := st.errs5 ++ (δ₀.filter sev5p).map errOf ++ (δ₁.filter sev5p).map errOf,
                 cycLog := st.cycLog ++ [δ₀.map errOf, δ₁.map errOf],
                 cycAvgs := st.cycAvgs ++ [mean (δ₀.map errOf), mean (δ₁.map errOf)],
                 c1Avgs := st.c1Avgs ++ [mean (δ₀.map errOf)],
                 c2Avgs := st.c2Avgs ++ [mean (δ₁.map errOf)] },
              [mean (δ₀.map errOf), mean (δ₁.map errOf)]) ∧
      δ₀.map keyOf = cycKeys sg 0 doms sevs ∧
      δ₁.map keyOf = cycKeys sg 1 doms sevs := by
  obtain ⟨δ₀, m₀, heq₀, hk₀⟩ := runDoms_ok f dsl sevs sg 0 doms st [] hlt
  have hδ₀ : δ₀ ≠ [] := by
    intro h
    rw [h] at hk₀
    exact cycKeys_ne_nil sg 0 hd hs hk₀.symm
  obtain ⟨δ₁, m₁, heq₁, hk₁⟩ := runDoms_ok f dsl sevs sg 1 doms
    { st with
        mdl := m₀,
        loaderLog := st.loaderLog ++ cycKeys sg 0 doms sevs,
        recs := st.recs ++ δ₀,
        errs := st.errs ++ δ₀.map errOf,
        errs5 := st.errs5 ++ (δ₀.filter sev5p).map errOf,
        cycLog := st.cycLog ++ [δ₀.map errOf],
        cycAvgs := st.cycAvgs ++ [mean (δ₀.map errOf)],
        c1Avgs := st.c1Avgs ++ [mean (δ₀.map errOf)] }
    [] hlt
  have hδ₁ : δ₁ ≠ [] := by
    intro h
    rw [h] at hk₁
    exact cycKeys_ne_nil sg 1 hd hs hk₁.symm
  refine ⟨δ₀, δ₁, m₁, ?_, hk₀, hk₁⟩
  rw [show List.range 2 = [0, 1] from rfl]
  simp only [runCycles, heq₀, List.nil_append, List.length_eq_zero, List.map_eq_nil_iff,
    hδ₀, ite_false, if_false]
  simp only [show ((0 : ℕ) == 0) = true from rfl, show ((0 : ℕ) == 1) = false from rfl,
    show ((1 : ℕ) == 0) = false from rfl, show ((1 : ℕ) == 1) = true from rfl,
    Bool.false_eq_true, if_true, if_false, ite_true, ite_false]
  rw [heq₁]
  simp [hδ₁, List.append_assoc, List.filter_append]

theorem runSubgroup_ok {σ : Type} (f : σ → ℚ × σ) (g : σ → σ) (dsl : List String)
    (sevs : List ℕ) (sg a b : ℕ) (st : St σ)
    (hlt : ∀ i ∈ pyRange a b, i < dsl.length) (hd : pyRange a b ≠ []) (hs : sevs ≠ []) :
    ∃ (δ₀ δ₁ : List CallRec) (m' : σ),
      runSubgroup (okOracle f) (okReset g) dsl sevs sg a b st =
        .ok { st with
                mdl := m',
                loaderLog := st.loaderLog ++ cycKeys sg 0 (pyRange a b) sevs
                  ++ cycKeys sg 1 (pyRange a b) sevs,
                recs := st.recs ++ δ₀ ++ δ₁,
                errs := st.errs ++ δ₀.map errOf ++ δ₁.map errOf,
                errs5 := st.errs5 ++ (δ₀.filter sev5p).map errOf
                  ++ (δ₁.filter sev5p).map errOf,
                cycLog := st.cycLog ++ [δ₀.map errOf, δ₁.map errOf],
                cycAvgs := st.cycAvgs ++ [mean (δ₀.map errOf), mean (δ₁.map errOf)],
                c1Avgs := st.c1Avgs ++ [mean (δ₀.map errOf)],
                c2Avgs := st.c2Avgs ++ [mean (δ₁.map errOf)],
                sgCycAvgs := st.sgCycAvgs ++ [[mean (δ₀.map errOf), mean (δ₁.map errOf)]],
                sgAvgs := st.sgAvgs ++ [mean [mean (δ₀.map errOf), mean (δ₁.map errOf)]] } ∧
      δ₀.map keyOf = cycKeys sg 0 (pyRange a b) sevs ∧
      δ₁.map keyOf = cycKeys sg 1 (pyRange a b) sevs := by
  obtain ⟨δ₀, δ₁, m', heq, hk₀, hk₁⟩ := runCycles2_ok f dsl sevs sg (pyRange a b)
    { st with mdl := g st.mdl } hlt hd hs
  refine ⟨δ₀, δ₁, m', ?_, hk₀, hk₁⟩
  simp only [runSubgroup, applyReset, okReset]
  rw [heq]
  simp

/-- The per-subgroup record characterization used by `runSubgroups_ok`. -/
def sgSpec (sevs : List ℕ) (p : ℕ × ℕ × ℕ) (d : List CallRec × List CallRec) : Prop :=
  d.1.map keyOf = cycKeys p.1 0 (pyRange p.2.1 p.2.2) sevs ∧
  d.2.map keyOf = cycKeys p.1 1 (pyRange p.2.1 p.2.2) sevs

/-- All main-loop records of a subgroup list, in order. -/
def flatRecs (Δ : List (List CallRec × List CallRec)) : List CallRec :=
  Δ.flatMap (fun d => d.1 ++ d.2)

theorem runSubgroups_ok {σ : Type} (f : σ → ℚ × σ) (g : σ → σ) (dsl : List String)
    (sevs : List ℕ) (hs : sevs ≠ []) :
    ∀ (sgl : List (ℕ × ℕ × ℕ)) (st : St σ),
    (∀ p ∈ sgl, pyRange p.2.1 p.2.2 ≠ [] ∧ ∀ i ∈ pyRange p.2.1 p.2.2, i < dsl.length) →
    ∃ (Δ : List (List CallRec × List CallRec)) (m' : σ),
      runSubgroups (okOracle f) (okReset g) dsl sevs sgl st =
        .ok { st with
                mdl := m',
                loaderLog := st.loaderLog ++ sgl.flatMap (fun p =>
                  cycKeys p.1 0 (pyRange p.2.1 p.2.2) sevs
                    ++ cycKeys p.1 1 (pyRange p.2.1 p.2.2) sevs),
                recs := st.recs ++ flatRecs Δ,
                errs := st.errs ++ (flatRecs Δ).map errOf,
                errs5 := st.errs5 ++ ((flatRecs Δ).filter sev5p).map errOf,
                cycLog := st.cycLog ++ Δ.flatMap (fun d =>
                  [d.1.map errOf, d.2.map errOf]),
                cycAvgs := st.cycAvgs ++ Δ.flatMap (fun d =>
                  [mean (d.1.map errOf), mean (d.2.map errOf)]),
                c1Avgs := st.c1Avgs ++ Δ.map (fun d => mean (d.1.map errOf)),
                c2Avgs := st.c2Avgs ++ Δ.map (fun d => mean (d.2.map errOf)),
                sgCycAvgs := st.sgCycAvgs ++ Δ.map (fun d =>
                  [mean (d.1.map errOf), mean (d.2.map errOf)]),
                sgAvgs := st.sgAvgs ++ Δ.map (fun d =>
                  mean [mean (d.1.map errOf), mean (d.2.map errOf)]) } ∧
      List.Forall₂ (sgSpec sevs) sgl Δ := by
  intro sgl
  induction sgl with
  | nil =>
    intro st _
    exact ⟨[], st.mdl, by simp [runSubgroups, flatRecs], List.Forall₂.nil⟩
  | cons p rest ih =>
    intro st hcond
    obtain ⟨q1, q2, q3⟩ := p
    obtain ⟨hd, hlt⟩ := hcond (q1, q2, q3) (List.mem_cons_self _ rest)
    obtain ⟨δ₀, δ₁, m₁, hsub, hk₀, hk₁⟩ :=
      runSubgroup_ok f g dsl sevs q1 q2 q3 st hlt hd hs
    obtain ⟨Δ, m₂, heq₂, hfa⟩ := ih _ (fun q hq => hcond q (List.mem_cons_of_mem _ hq))
    refine ⟨(δ₀, δ₁) :: Δ, m₂, ?_, List.Forall₂.cons ⟨hk₀, hk₁⟩ hfa⟩
    simp only [runSubgroups, hsub]
    rw [heq₂]
    simp [flatRecs, List.append_assoc, List.filter_append]

theorem runTail_ok {σ : Type} (f : σ → ℚ × σ) :
    ∀ (sevs : List ℕ) (st : St σ),
    ∃ (τ : List TailRec) (m' : σ),
      runTail (okOracle f) sevs st =
        .ok { st with
                mdl := m',
                errs := st.errs ++ τ.map terrOf,
                errs5 := st.errs5 ++ (τ.filter tsev5p).map terrOf,
                tailLoad := st.tailLoad ++ sevs,
                tailRecs := st.tailRecs ++ τ } ∧
      τ.map (fun t => t.sev) = sevs := by
  intro sevs
  induction sevs with
  | nil => intro st; exact ⟨[], st.mdl, by simp [runTail], rfl⟩
  | cons v vs ih =>
    intro st
    obtain ⟨τ, m', heq, hsevs⟩ := ih
      { st with mdl := (f st.mdl).2,
                tailLoad := st.tailLoad ++ [v],
                tailRecs := st.tailRecs ++ [⟨v, (f st.mdl).1⟩],
                errs := st.errs ++ [1 - (f st.mdl).1],
                errs5 := if v == 5 && "mixed" != "none" then st.errs5 ++ [1 - (f st.mdl).1]
                         else st.errs5 }
    refine ⟨⟨v, (f st.mdl).1⟩ :: τ, m', ?_, by simp [hsevs]⟩
    simp only [runTail, okOracle]
    rw [heq]
    by_cases h5 : v = 5 <;>
      simp [tsev5p, terrOf, List.filter_cons, h5, List.append_assoc]

theorem mem_pyRange {a b i : ℕ} : i ∈ pyRange a b ↔ a ≤ i ∧ i < b := by
  simp only [pyRange, List.mem_map, List.mem_range]
  constructor
  · rintro ⟨x, hx, rfl⟩; omega
  · rintro ⟨hle, hlt⟩; exact ⟨i - a, by omega, by omega⟩

theorem flatRecs_keys {sevs : List ℕ} :
    ∀ {sgl : List (ℕ × ℕ × ℕ)} {Δ : List (List CallRec × List CallRec)},
    List.Forall₂ (sgSpec sevs) sgl Δ →
    (flatRecs Δ).map keyOf = sgl.flatMap (fun p =>
      cycKeys p.1 0 (pyRange p.2.1 p.2.2) sevs
        ++ cycKeys p.1 1 (pyRange p.2.1 p.2.2) sevs) := by
  intro sgl Δ h
  induction h with
  | nil => simp [flatRecs]
  | cons hpd tail ih =>
    obtain ⟨hk0, hk1⟩ := hpd
    simp only [flatRecs, List.flatMap_cons, List.map_append] at ih ⊢
    simp [hk0, hk1, ih, List.append_assoc]

theorem flatten_cycLog (Δ : List (List CallRec × List CallRec)) :
    (Δ.flatMap (fun d => [d.1.map errOf, d.2.map errOf])).flatten
      = (flatRecs Δ).map errOf := by
  induction Δ with
  | nil => simp [flatRecs]
  | cons d Δ ih => simp [flatRecs, ih, List.append_assoc]

theorem map_mean_cycLog (Δ : List (List CallRec × List CallRec)) :
    (Δ.flatMap (fun d => [d.1.map errOf, d.2.map errOf])).map mean
      = Δ.flatMap (fun d => [mean (d.1.map errOf), mean (d.2.map errOf)]) := by
  induction Δ with
  | nil => simp
  | cons d Δ ih => simp [ih]

theorem flatten_sgCycAvgs (Δ : List (List CallRec × List CallRec)) :
    (Δ.map (fun d => [mean (d.1.map errOf), mean (d.2.map errOf)])).flatten
      = Δ.flatMap (fun d => [mean (d.1.map errOf), mean (d.2.map errOf)]) := by
  induction Δ with
  | nil => simp
  | cons d Δ ih => simp [ih]

theorem length_cycLog (Δ : List (List CallRec × List CallRec)) :
    (Δ.flatMap (fun d => [d.1.map errOf, d.2.map errOf])).length = 2 * Δ.length := by
  induction Δ with
  | nil => simp
  | cons d Δ ih => simp [ih]; omega

theorem planKeys_eq (sevs : List ℕ) :
    planKeys sevs = subgroupsEnum.flatMap (fun p =>
      cycKeys p.1 0 (pyRange p.2.1 p.2.2) sevs
        ++ cycKeys p.1 1 (pyRange p.2.1 p.2.2) sevs) := by
  simp [planKeys, subgroupsEnum, cycKeys, List.flatMap_cons,
    show List.range 2 = [0, 1] from rfl]

/-- Master characterization of a completed run of `evaluate` with a
non-raising oracle and reset. -/
theorem evaluate_ok {σ : Type} (setting dataset : String) (domSeq : List String)
    (sevCfg : List ℕ) (f : σ → ℚ × σ) (g : σ → σ) (m0 : σ)
    (h1 : settingValid setting = true)
    (h2 : severitiesFor setting dataset sevCfg ≠ [])
    (h3 : 15 ≤ (domainSeqLoop setting domSeq).length) :
    ∃ out : DriverOut σ,
      evaluate setting dataset domSeq sevCfg (okOracle f) (okReset g) m0 = .ok out ∧
      out.st.loaderLog = planKeys (severitiesFor setting dataset sevCfg) ∧
      out.st.recs.map keyOf = planKeys (severitiesFor setting dataset sevCfg) ∧
      out.st.errs = out.st.recs.map errOf ++ out.st.tailRecs.map terrOf ∧
      out.st.errs5 = (out.st.recs.filter sev5p).map errOf
        ++ (out.st.tailRecs.filter tsev5p).map terrOf ∧
      out.st.cycLog.flatten = out.st.recs.map errOf ∧
      out.st.cycAvgs = out.st.cycLog.map mean ∧
      out.st.sgCycAvgs.flatten = out.st.cycAvgs ∧
      (∀ l ∈ out.st.sgCycAvgs, l.length = 2) ∧
      out.st.sgAvgs = out.st.sgCycAvgs.map mean ∧
      out.st.sgAvgs.length = 5 ∧
      out.st.cycLog.length = 10 ∧
      out.totalAvg = mean out.st.sgAvgs ∧
      out.st.tailRecs.map (fun t => t.sev)
        = (if setting == "continual_mixed_domain"
           then severitiesFor setting dataset sevCfg else []) ∧
      out.st.tailLoad
        = (if setting == "continual_mixed_domain"
           then severitiesFor setting dataset sevCfg else []) := by
  have hcond : ∀ p ∈ subgroupsEnum, pyRange p.2.1 p.2.2 ≠ []
      ∧ ∀ i ∈ pyRange p.2.1 p.2.2, i < (domainSeqLoop setting domSeq).length := by
    intro p hp
    fin_cases hp <;>
      exact ⟨by decide, fun i hi => by simp [mem_pyRange] at hi; omega⟩
  obtain ⟨Δ, mA, heqA, hfa⟩ := runSubgroups_ok f g (domainSeqLoop setting domSeq)
    (severitiesFor setting dataset sevCfg) h2 subgroupsEnum (initSt m0) hcond
  have hΔlen : Δ.length = 5 := by
    have hl := List.Forall₂.length_eq hfa
    simpa [subgroupsEnum] using hl.symm
  have hkeys := flatRecs_keys hfa
  by_cases hcmd : (setting == "continual_mixed_domain") = true
  · obtain ⟨τ, mB, heqB, hτ⟩ := runTail_ok f (severitiesFor setting dataset sevCfg) _
    exact ⟨_,
      by simp only [evaluate, h1, eq_self_iff_true, if_true, heqA, hcmd]
         rw [heqB],
      by refine ⟨?_, ?_, ?_, ?_, ?_, ?_, ?_, ?_, ?_, ?_, ?_, ?_, ?_, ?_⟩ <;>
           simp [initSt, planKeys_eq, hkeys, hτ, hcmd, hΔlen,
             flatten_cycLog, map_mean_cycLog, flatten_sgCycAvgs, length_cycLog,
             List.map_map, Function.comp, List.forall_mem_map,
             -List.length_flatMap] <;>
         (rintro l x y hmem rfl; rfl)⟩
  · rw [Bool.not_eq_true] at hcmd
    exact ⟨_,
      by simp only [evaluate, h1, eq_self_iff_true, if_true, heqA, hcmd,
           Bool.false_eq_true, if_false]
         rfl,
      by refine ⟨?_, ?_, ?_, ?_, ?_, ?_, ?_, ?_, ?_, ?_, ?_, ?_, ?_, ?_⟩ <;>
           simp [initSt, planKeys_eq, hkeys, hcmd, hΔlen,
             flatten_cycLog, map_mean_cycLog, flatten_sgCycAvgs, length_cycLog,
             List.map_map, Function.comp, List.forall_mem_map,
             -List.length_flatMap] <;>
         (rintro l x y hmem rfl; rfl)⟩

/-! ### Error analysis of the driver -/

theorem runDoms_err_kind {σ : Type} (f : σ → ℚ × σ) (dsl : List String)
    (sevs : List ℕ) (sg cyc : ℕ) :
    ∀ (doms : List ℕ) (st : St σ) (ce : List ℚ) (fl : Fail σ),
    runDoms (okOracle f) dsl sevs sg cyc doms st ce = .error fl →
    fl.err = .indexError := by
  intro doms
  induction doms with
  | nil => intro st ce fl h; simp [runDoms] at h
  | cons i rest ih =>
    intro st ce fl h
    by_cases hi : i < dsl.length
    · have hd : dsl[i]? = some dsl[i] := List.getElem?_eq_getElem hi
      obtain ⟨δ, m', heq, -⟩ := runSevs_ok f sg cyc i dsl[i] sevs st ce
      simp only [runDoms, hd, heq] at h
      exact ih _ _ _ h
    · have hd : dsl[i]? = none := by rw [List.getElem?_eq_none]; omega
      simp only [runDoms, hd, Except.error.injEq] at h
      rw [← h]

theorem runCycles_err_kind {σ : Type} (f : σ → ℚ × σ) (dsl : List String)
    (sevs : List ℕ) (sg : ℕ) (doms : List ℕ) :
    ∀ (cycs : List ℕ) (st : St σ) (sce : List ℚ) (fl : Fail σ),
    runCycles (okOracle f) dsl sevs sg doms cycs st sce = .error fl →
    fl.err = .indexError ∨ fl.err = .zeroDivisionError := by
  intro cycs
  induction cycs with
  | nil => intro st sce fl h; simp [runCycles] at h
  | cons c rest ih =>
    intro st sce fl h
    simp only [runCycles] at h
    cases hr : runDoms (okOracle f) dsl sevs sg c doms st [] with
    | error f2 =>
      rw [hr] at h
      simp only [Except.error.injEq] at h
      exact Or.inl (h ▸ runDoms_err_kind f dsl sevs sg c doms st [] f2 hr)
    | ok pr =>
      rw [hr] at h
      by_cases hl : pr.2.length = 0
      · simp only [hl, if_true, eq_self_iff_true, Except.error.injEq] at h
        right
        rw [← h]
      · simp only [hl, if_false, ite_false] at h
        exact ih _ _ _ h

theorem runSubgroup_err_kind {σ : Type} (f : σ → ℚ × σ) (g : σ → σ)
    (dsl : List String) (sevs : List ℕ) (sg a b : ℕ) (st : St σ) (fl : Fail σ)
    (h : runSubgroup (okOracle f) (okReset g) dsl sevs sg a b st = .error fl) :
    fl.err = .indexError ∨ fl.err = .zeroDivisionError := by
  simp only [runSubgroup, applyReset, okReset] at h
  cases hr : runCycles (okOracle f) dsl sevs sg (pyRange a b) (List.range 2)
      { st with mdl := g st.mdl } [] with
  | error f2 =>
    rw [hr] at h
    simp only [Except.error.injEq] at h
    exact h ▸ runCycles_err_kind f dsl sevs sg (pyRange a b) _ _ _ f2 hr
  | ok pr =>
    rw [hr] at h
    by_cases hl : pr.2.length = 0
    · simp only [hl, if_true, eq_self_iff_true, Except.error.injEq] at h
      right
      rw [← h]
    · simp only [hl, if_false, ite_false] at h
      cases h

theorem runSubgroups_err_kind {σ : Type} (f : σ → ℚ × σ) (g : σ → σ)
    (dsl : List String) (sevs : List ℕ) :
    ∀ (sgl : List (ℕ × ℕ × ℕ)) (st : St σ) (fl : Fail σ),
    runSubgroups (okOracle f) (okReset g) dsl sevs sgl st = .error fl →
    fl.err = .indexError ∨ fl.err = .zeroDivisionError := by
  intro sgl
  induction sgl with
  | nil => intro st fl h; simp [runSubgroups] at h
  | cons p rest ih =>
    intro st fl h
    obtain ⟨q1, q2, q3⟩ := p
    simp only [runSubgroups] at h
    cases hr : runSubgroup (okOracle f) (okReset g) dsl sevs q1 q2 q3 st with
    | error f2 =>
      rw [hr] at h
      simp only [Except.error.injEq] at h
      exact h ▸ runSubgroup_err_kind f g dsl sevs q1 q2 q3 st f2 hr
    | ok st' =>
      rw [hr] at h
      exact ih _ _ h

theorem evaluate_err_kind {σ : Type} (setting dataset : String) (domSeq : List String)
    (sevCfg : List ℕ) (f : σ → ℚ × σ) (g : σ → σ) (m0 : σ)
    (h1 : settingValid setting = true) (fl : Fail σ)
    (h : evaluate setting dataset domSeq sevCfg (okOracle f) (okReset g) m0 = .error fl) :
    fl.err = .indexError ∨ fl.err = .zeroDivisionError := by
  simp only [evaluate, h1, eq_self_iff_true, if_true] at h
  cases hr : runSubgroups (okOracle f) (okReset g) (domainSeqLoop setting domSeq)
      (severitiesFor setting dataset sevCfg) subgroupsEnum (initSt m0) with
  | error f2 =>
    rw [hr] at h
    simp only [Except.error.injEq] at h
    exact h ▸ runSubgroups_err_kind f g _ _ _ _ f2 hr
  | ok st =>
    rw [hr] at h
    by_cases hcmd : (setting == "continual_mixed_domain") = true
    · simp only [hcmd, eq_self_iff_true, if_true] at h
      obtain ⟨τ, mB, heqB, -⟩ := runTail_ok f (severitiesFor setting dataset sevCfg) st
      rw [heqB] at h
      cases h
    · rw [Bool.not_eq_true] at hcmd
      simp only [hcmd, Bool.false_eq_true, if_false, ite_false] at h
      cases h

theorem runDoms_err {σ : Type} (f : σ → ℚ × σ) (dsl : List String)
    (sevs : List ℕ) (sg cyc : ℕ) :
    ∀ (doms : List ℕ) (st : St σ) (ce : List ℚ),
    (∃ i ∈ doms, dsl.length ≤ i) →
    ∃ fl, runDoms (okOracle f) dsl sevs sg cyc doms st ce = .error fl ∧
      fl.err = .indexError := by
  intro doms
  induction doms with
  | nil => rintro st ce ⟨i, hi, -⟩; cases hi
  | cons i rest ih =>
    rintro st ce ⟨j, hj, hjge⟩
    by_cases hi : dsl.length ≤ i
    · have hd : dsl[i]? = none := by rw [List.getElem?_eq_none]; omega
      exact ⟨⟨.indexError, st⟩, by simp [runDoms, hd], rfl⟩
    · push_neg at hi
      have hd : dsl[i]? = some dsl[i] := List.getElem?_eq_getElem hi
      obtain ⟨δ, m', heq, -⟩ := runSevs_ok f sg cyc i dsl[i] sevs st ce
      have hjr : j ∈ rest := by
        rcases List.mem_cons.mp hj with rfl | hmem
        · omega
        · exact hmem
      obtain ⟨fl, hfl, hkind⟩ := ih _ _ ⟨j, hjr, hjge⟩
      exact ⟨fl, by simp only [runDoms, hd, heq]; exact hfl, hkind⟩

theorem runSubgroup_err {σ : Type} (f : σ → ℚ × σ) (g : σ → σ) (dsl : List String)
    (sevs : List ℕ) (sg a b : ℕ) (st : St σ)
    (h : ∃ i ∈ pyRange a b, dsl.length ≤ i) :
    ∃ fl, runSubgroup (okOracle f) (okReset g) dsl sevs sg a b st = .error fl ∧
      fl.err = .indexError := by
  obtain ⟨fl, hfl, hkind⟩ := runDoms_err f dsl sevs sg 0 (pyRange a b)
    { st with mdl := g st.mdl } [] h
  refine ⟨fl, ?_, hkind⟩
  simp only [runSubgroup, applyReset, okReset,
    show List.range 2 = [0, 1] from rfl, runCycles, hfl]

theorem runSubgroups_err {σ : Type} (f : σ → ℚ × σ) (g : σ → σ) (dsl : List String)
    (sevs : List ℕ) (hs : sevs ≠ []) :
    ∀ (sgl : List (ℕ × ℕ × ℕ)) (st : St σ),
    (∃ p ∈ sgl, ∃ i ∈ pyRange p.2.1 p.2.2, dsl.length ≤ i) →
    (∀ p ∈ sgl, pyRange p.2.1 p.2.2 ≠ []) →
    ∃ fl, runSubgroups (okOracle f) (okReset g) dsl sevs sgl st = .error fl ∧
      fl.err = .indexError := by
  intro sgl
  induction sgl with
  | nil => rintro st ⟨p, hp, -⟩ _; cases hp
  | cons p rest ih =>
    rintro st ⟨q, hq, i, hiq, hile⟩ hne
    obtain ⟨q1, q2, q3⟩ := p
    by_cases hbad : ∃ i ∈ pyRange q2 q3, dsl.length ≤ i
    · obtain ⟨fl, hfl, hkind⟩ := runSubgroup_err f g dsl sevs q1 q2 q3 st hbad
      exact ⟨fl, by simp only [runSubgroups, hfl], hkind⟩
    · push_neg at hbad
      obtain ⟨δ₀, δ₁, m', hok, -, -⟩ := runSubgroup_ok f g dsl sevs q1 q2 q3 st
        (fun i hi => by have := hbad i hi; omega)
        (hne (q1, q2, q3) (List.mem_cons_self _ _)) hs
      have hqr : q ∈ rest := by
        rcases List.mem_cons.mp hq with rfl | hmem
        · exact absurd hile (by have := hbad i hiq; omega)
        · exact hmem
      obtain ⟨fl, hfl, hkind⟩ := ih _ ⟨q, hqr, i, hiq, hile⟩
        (fun r hr => hne r (List.mem_cons_of_mem _ hr))
      exact ⟨fl, by simp only [runSubgroups, hok]; exact hfl, hkind⟩

/-! ### The iteration-plan key list has no duplicates for duplicate-free severities -/

/-- The 30 (subgroup, cycle, domain) triples of the iteration plan. -/
def planTriples : List (ℕ × ℕ × ℕ) :=
  subgroupsEnum.flatMap (fun p =>
    (List.range 2).flatMap (fun cyc => (pyRange p.2.1 p.2.2).map (fun i => (p.1, cyc, i))))

theorem planKeys_triples (sevs : List ℕ) :
    planKeys sevs = planTriples.flatMap
      (fun t => sevs.map (fun v => (t.1, t.2.1, t.2.2, v))) := by
  simp only [planKeys, planTriples, subgroupsEnum, List.flatMap_cons, List.flatMap_nil,
    List.flatMap_append, show List.range 2 = [0, 1] from rfl,
    show pyRange 0 3 = [0, 1, 2] from rfl, show pyRange 3 7 = [3, 4, 5, 6] from rfl,
    show pyRange 7 10 = [7, 8, 9] from rfl, show pyRange 10 12 = [10, 11] from rfl,
    show pyRange 12 15 = [12, 13, 14] from rfl, List.map_cons, List.map_nil,
    List.append_nil, List.nil_append, List.append_assoc]

/-- In a duplicate-free list every member is counted exactly once. -/
theorem count_one_of_nodup_mem {α : Type} [BEq α] [LawfulBEq α] {a : α} :
    ∀ {l : List α}, l.Nodup → a ∈ l → l.count a = 1 := by
  intro l
  induction l with
  | nil => intro _ h; cases h
  | cons b l ih =>
    intro hd h
    rw [List.count_cons]
    rcases List.mem_cons.mp h with rfl | hmem
    · have hz : l.count a = 0 := List.count_eq_zero.mpr (List.nodup_cons.mp hd).1
      simp [hz]
    · have hne : a ≠ b := fun hba => (List.nodup_cons.mp hd).1 (hba ▸ hmem)
      rw [ih (List.Nodup.of_cons hd) hmem]
      simp [hne, Ne.symm hne]

theorem nodup_planKeys {sevs : List ℕ} (hs : sevs.Nodup) : (planKeys sevs).Nodup := by
  rw [planKeys_triples]
  have key : ∀ (ts : List (ℕ × ℕ × ℕ)), ts.Nodup →
      (ts.flatMap (fun t => sevs.map (fun v => (t.1, t.2.1, t.2.2, v)))).Nodup := by
    intro ts
    induction ts with
    | nil => intro _; simp
    | cons t ts ih =>
      intro hnd
      rw [List.flatMap_cons, List.nodup_append]
      refine ⟨hs.map ?_, ih (List.Nodup.of_cons hnd), ?_⟩
      · intro a b hab
        simpa using hab
      · intro k hk1 hk2
        simp only [List.mem_map] at hk1
        obtain ⟨v, hv, rfl⟩ := hk1
        simp only [List.mem_flatMap, List.mem_map] at hk2
        obtain ⟨t', ht', v', hv', hteq⟩ := hk2
        have htt : t' = t := by
          obtain ⟨a1, a2, a3⟩ := t
          obtain ⟨b1, b2, b3⟩ := t'
          simp_all
        rw [htt] at ht'
        exact (List.nodup_cons.mp hnd).1 ht'
  exact key planTriples (by decide)

/-! ### Concrete test vectors used by witnesses and counterexamples -/

/-- A 15-domain corruption sequence, as used with `imagenet_c`. -/
def dseq15 : List String :=
  ["gaussian_noise", "shot_noise", "impulse_noise", "defocus_blur", "glass_blur",
   "motion_blur", "zoom_blur", "snow", "frost", "fog", "brightness", "contrast",
   "elastic_transform", "pixelate", "jpeg_compression"]

/-- A concrete accuracy oracle: every call reports accuracy `1/2` on a trivial
external world. -/
def accHalf : Unit → ℚ × Unit := fun _ => (1 / 2, ())

/-- The run result is a success whose value satisfies `p`. -/
def resultSatisfies {ε α : Type} (r : Except ε α) (p : α → Prop) : Prop :=
  match r with
  | .ok a => p a
  | .error _ => False

instance {ε α : Type} (r : Except ε α) (p : α → Prop) [DecidablePred p] :
    Decidable (resultSatisfies r p) :=
  match r with
  | .ok a => inferInstanceAs (Decidable (p a))
  | .error _ => .isFalse (fun h => h)

/-- The exception kind with which a run failed, if it failed. -/
def errKind {σ : Type} (r : Except (Fail σ) (DriverOut σ)) : Option PyErr :=
  match r with
  | .error fl => some fl.err
  | .ok _ => none

/-! ### C1, C2, C3: the evaluation loop -/

/-- C1: every run of `evaluate` that reaches the evaluation phase (valid
setting, a nonempty severity sequence and at least 15 looped domains) performs
exactly the plan `planKeys`: for each of the five fixed subgroups (domains
0-2, 3-6, 7-9, 10-11, 12-14), two cycles, domains in increasing order and
severities in configured order; the data-loader factory and the
accuracy-computation routine are each called once per plan entry, and when the
severity sequence has no duplicates, exactly once per (subgroup, cycle,
domain, severity) combination. -/
theorem c1_iteration_plan {σ : Type} (setting dataset : String) (domSeq : List String)
    (sevCfg : List ℕ) (f : σ → ℚ × σ) (g : σ → σ) (m0 : σ)
    (h1 : settingValid setting = true)
    (h2 : severitiesFor setting dataset sevCfg ≠ [])
    (h3 : 15 ≤ (domainSeqLoop setting domSeq).length) :
    ∃ out : DriverOut σ,
      evaluate setting dataset domSeq sevCfg (okOracle f) (okReset g) m0 = .ok out ∧
      out.st.loaderLog = planKeys (severitiesFor setting dataset sevCfg) ∧
      out.st.recs.map keyOf = planKeys (severitiesFor setting dataset sevCfg) ∧
      ((severitiesFor setting dataset sevCfg).Nodup →
        ∀ k ∈ planKeys (severitiesFor setting dataset sevCfg),
          out.st.loaderLog.count k = 1 ∧ (out.st.recs.map keyOf).count k = 1) := by
  obtain ⟨out, heq, hload, hrecs, -⟩ :=
    evaluate_ok setting dataset domSeq sevCfg f g m0 h1 h2 h3
  refine ⟨out, heq, hload, hrecs, fun hnd k hk => ?_⟩
  have hnodup := nodup_planKeys hnd
  rw [hload, hrecs]
  exact ⟨count_one_of_nodup_mem hnodup hk, count_one_of_nodup_mem hnodup hk⟩

/-- Claim C2 as frozen: for every evaluation performed by `evaluate` — the
main loop's and the `continual_mixed_domain` tail's alike — the error
`1 - acc` is appended to the global error list, to the current cycle's error
list, and to the severity-5 list iff `severity = 5` and the domain is not
`"none"`.  The second conjunct states that every entry of the global list is
accounted for by some cycle's list. -/
def c2Claim {σ : Type} (out : DriverOut σ) : Prop :=
  out.st.errs = out.st.recs.map errOf ++ out.st.tailRecs.map terrOf ∧
  out.st.cycLog.flatten = out.st.errs ∧
  out.st.errs5 = (out.st.recs.filter sev5p).map errOf
    ++ (out.st.tailRecs.filter tsev5p).map terrOf

instance {σ : Type} (out : DriverOut σ) : Decidable (c2Claim out) := by
  unfold c2Claim
  infer_instance

/-- A concrete completed `continual_mixed_domain` run: 15 domains, severity
sequence `[5]`, every accuracy `1/2`. -/
def c2run : Except (Fail Unit) (DriverOut Unit) :=
  evaluate "continual_mixed_domain" "cifar10_c" dseq15 [5] (okOracle accHalf)
    (okReset id) ()

/-- Lengths of the global error list and of the concatenation of all cycle
error lists in the concrete run `c2run`. -/
def c2obs : Option (ℕ × ℕ) :=
  match c2run with
  | .ok out => some (out.st.errs.length, out.st.cycLog.flatten.length)
  | .error _ => none

theorem c2obs_eq : c2obs = some (31, 30) := rfl

/-- C2 counterexample: the concrete `continual_mixed_domain` run completes,
but its output violates the claim — the tail evaluation's error is in the
global error list (31 entries) while the cycle lists jointly hold only the 30
main-loop errors. -/
theorem c2_counterexample : resultSatisfies c2run (fun out => ¬ c2Claim out) := by
  cases hrun : c2run with
  | error fl =>
    have hobs := c2obs_eq
    simp only [c2obs, hrun] at hobs
    cases hobs
  | ok out =>
    show ¬ c2Claim out
    rintro ⟨-, h2, -⟩
    have hobs := c2obs_eq
    simp only [c2obs, hrun] at hobs
    rw [h2] at hobs
    simp only [Option.some.injEq, Prod.mk.injEq] at hobs
    omega

/-- C2 (amended): the recorded error of every evaluation equals `1 - acc` and
is appended to the global error list; it is appended to the severity-5 list
iff `severity = 5` and the domain is not `"none"`; main-loop errors are each
in their cycle's error list, while the `continual_mixed_domain` tail errors
belong to no cycle list; for every other setting there are no tail
evaluations. -/
theorem c2_error_tracking {σ : Type} (setting dataset : String) (domSeq : List String)
    (sevCfg : List ℕ) (f : σ → ℚ × σ) (g : σ → σ) (m0 : σ)
    (h1 : settingValid setting = true)
    (h2 : severitiesFor setting dataset sevCfg ≠ [])
    (h3 : 15 ≤ (domainSeqLoop setting domSeq).length) :
    ∃ out : DriverOut σ,
      evaluate setting dataset domSeq sevCfg (okOracle f) (okReset g) m0 = .ok out ∧
      out.st.errs = out.st.recs.map errOf ++ out.st.tailRecs.map terrOf ∧
      out.st.cycLog.flatten = out.st.recs.map errOf ∧
      out.st.errs5 = (out.st.recs.filter sev5p).map errOf
        ++ (out.st.tailRecs.filter tsev5p).map terrOf ∧
      (setting ≠ "continual_mixed_domain" → out.st.tailRecs = []) := by
  obtain ⟨out, heq, -, -, herrs, herrs5, hflat, -, -, -, -, -, -, -, htail, -⟩ :=
    evaluate_ok setting dataset domSeq sevCfg f g m0 h1 h2 h3
  refine ⟨out, heq, herrs, hflat, herrs5, fun hne => ?_⟩
  have hb : (setting == "continual_mixed_domain") = false := by
    rw [beq_eq_false_iff_ne]
    exact hne
  rw [hb] at htail
  simp only [Bool.false_eq_true, if_false, ite_false] at htail
  exact List.map_eq_nil_iff.mp htail

/-- C3: in every completed run, each reported cycle average is the arithmetic
mean (`sum/length`) of that cycle's recorded per-(domain, severity) errors;
each subgroup average is the mean of its two cycle averages; the total average
is the mean of the five subgroup averages. -/
theorem c3_reported_averages {σ : Type} (setting dataset : String) (domSeq : List String)
    (sevCfg : List ℕ) (f : σ → ℚ × σ) (g : σ → σ) (m0 : σ)
    (h1 : settingValid setting = true)
    (h2 : severitiesFor setting dataset sevCfg ≠ [])
    (h3 : 15 ≤ (domainSeqLoop setting domSeq).length) :
    ∃ out : DriverOut σ,
      evaluate setting dataset domSeq sevCfg (okOracle f) (okReset g) m0 = .ok out ∧
      out.st.cycLog.flatten = out.st.recs.map errOf ∧
      out.st.cycAvgs = out.st.cycLog.map mean ∧
      out.st.sgCycAvgs.flatten = out.st.cycAvgs ∧
      (∀ l ∈ out.st.sgCycAvgs, l.length = 2) ∧
      out.st.sgAvgs = out.st.sgCycAvgs.map mean ∧
      out.st.sgAvgs.length = 5 ∧
      out.st.cycLog.length = 10 ∧
      out.totalAvg = mean out.st.sgAvgs := by
  obtain ⟨out, heq, -, -, -, -, hflat, hcyc, hsgf, hsg2, hsgm, hsg5, hc10, htot, -, -⟩ :=
    evaluate_ok setting dataset domSeq sevCfg f g m0 h1 h2 h3
  exact ⟨out, heq, hflat, hcyc, hsgf, hsg2, hsgm, hsg5, hc10, htot⟩

/-! ### C4: setting validation -/

/-- C4: `evaluate` proceeds past setting validation iff the setting is one of
the nine valid strings; otherwise it fails with an assertion error
immediately, with the initial state untouched (no loader call, no accuracy
call); with a non-raising oracle no later failure is an assertion error. -/
theorem c4_setting_validation {σ : Type} (setting dataset : String)
    (domSeq : List String) (sevCfg : List ℕ) (f : σ → ℚ × σ) (g : σ → σ) (m0 : σ) :
    (settingValid setting = true ↔
      (setting = "reset_each_shift" ∨ setting = "continual" ∨ setting = "gradual" ∨
       setting = "mixed_domains" ∨ setting = "correlated" ∨
       setting = "mixed_domains_correlated" ∨ setting = "gradual_correlated" ∨
       setting = "reset_each_shift_correlated" ∨
       setting = "continual_mixed_domain")) ∧
    (settingValid setting = false →
      evaluate setting dataset domSeq sevCfg (okOracle f) (okReset g) m0 =
        .error ⟨.assertionError, initSt m0⟩ ∧ (initSt m0).loaderLog = [] ∧
        (initSt m0).recs = []) ∧
    (settingValid setting = true →
      ∀ fl, evaluate setting dataset domSeq sevCfg (okOracle f) (okReset g) m0 =
        .error fl → fl.err ≠ .assertionError) := by
  refine ⟨?_, ?_, ?_⟩
  · simp [settingValid, validSettings]
  · intro hv
    refine ⟨?_, rfl, rfl⟩
    simp [evaluate, hv]
  · intro hv fl hfl
    rcases evaluate_err_kind setting dataset domSeq sevCfg f g m0 hv fl hfl with h | h <;>
      simp [h]

/-! ### C6: the reset try/except -/

/-- C6: at the start of every subgroup `evaluate` attempts `model.reset()`; an
`AttributeError` is caught and the run proceeds exactly as if reset had left
the model unchanged; a reset failing with any other exception aborts the run
with that exception before any data is loaded; an exception raised by the
accuracy routine likewise propagates to the caller. -/
theorem c6_reset_recovery {σ : Type} (setting dataset : String) (domSeq : List String)
    (sevCfg : List ℕ) (oracle : σ → Except PyErr (ℚ × σ)) (m0 : σ) (e : PyErr) :
    (evaluate setting dataset domSeq sevCfg oracle (fun _ => .error .attributeError) m0 =
      evaluate setting dataset domSeq sevCfg oracle (fun s => .ok s) m0) ∧
    (e ≠ .attributeError → settingValid setting = true →
      evaluate setting dataset domSeq sevCfg oracle (fun _ => .error e) m0 =
        .error ⟨e, initSt m0⟩) ∧
    (settingValid setting = true →
      domainSeqLoop setting domSeq ≠ [] →
      severitiesFor setting dataset sevCfg ≠ [] →
      ∃ fl, evaluate setting dataset domSeq sevCfg (fun _ => .error e)
        (fun s => .ok s) m0 = .error fl ∧ fl.err = e) := by
  refine ⟨rfl, ?_, ?_⟩
  · intro hne hv
    simp only [evaluate, hv, eq_self_iff_true, if_true, subgroupsEnum, runSubgroups,
      runSubgroup, applyReset]
  · intro hv hdsl hsevs
    obtain ⟨d, dsl', hd⟩ : ∃ d dsl', domainSeqLoop setting domSeq = d :: dsl' := by
      cases hcase : domainSeqLoop setting domSeq with
      | nil => exact absurd hcase hdsl
      | cons d dsl' => exact ⟨d, dsl', rfl⟩
    obtain ⟨v, vs, hvs⟩ : ∃ v vs, severitiesFor setting dataset sevCfg = v :: vs := by
      cases hcase : severitiesFor setting dataset sevCfg with
      | nil => exact absurd hcase hsevs
      | cons v vs => exact ⟨v, vs, rfl⟩
    refine ⟨⟨e, { initSt m0 with loaderLog := [(0, 0, 0, v)] }⟩, ?_, rfl⟩
    simp only [evaluate, hv, eq_self_iff_true, if_true, hd, hvs, subgroupsEnum,
      runSubgroups, runSubgroup, applyReset, show List.range 2 = [0, 1] from rfl,
      runCycles, show pyRange 0 3 = [0, 1, 2] from rfl, runDoms,
      show (d :: dsl')[0]? = some d by simp, runSevs]
    simp [initSt]

/-! ### C7: too few looped domains -/

/-- C7 (amended): with a valid setting, whenever the looped domain sequence
has fewer than 15 entries and the severity sequence is nonempty (or the
domain sequence is so short that the first subgroup's first cycle cannot even
finish), the subgroup loop raises `IndexError`; in particular for every
setting containing `"mixed_domains"` the looped sequence collapses to
`["mixed"]` and the loop raises `IndexError`.  (With an empty severity
sequence and 3 ≤ length < 15 a `ZeroDivisionError` fires first, see the
counterexample.) -/
theorem c7_short_domain_sequence {σ : Type} (setting dataset : String)
    (domSeq : List String) (sevCfg : List ℕ) (f : σ → ℚ × σ) (g : σ → σ) (m0 : σ)
    (h1 : settingValid setting = true) :
    ((severitiesFor setting dataset sevCfg ≠ [] ∨
        (domainSeqLoop setting domSeq).length < 3) →
      (domainSeqLoop setting domSeq).length < 15 →
      ∃ fl, evaluate setting dataset domSeq sevCfg (okOracle f) (okReset g) m0 =
        .error fl ∧ fl.err = .indexError) ∧
    (containsStr "mixed_domains" setting = true →
      domainSeqLoop setting domSeq = ["mixed"] ∧
      ∃ fl, evaluate setting dataset domSeq sevCfg (okOracle f) (okReset g) m0 =
        .error fl ∧ fl.err = .indexError) := by
  have hfirst : ∀ st : St σ, (domainSeqLoop setting domSeq).length < 3 →
      ∃ fl, evaluate setting dataset domSeq sevCfg (okOracle f) (okReset g) m0 =
        .error fl ∧ fl.err = .indexError := by
    intro st hlt3
    obtain ⟨fl, hfl, hkind⟩ := runSubgroup_err f g (domainSeqLoop setting domSeq)
      (severitiesFor setting dataset sevCfg) 0 0 3 (initSt m0)
      ⟨(domainSeqLoop setting domSeq).length,
        mem_pyRange.mpr ⟨Nat.zero_le _, hlt3⟩, le_refl _⟩
    refine ⟨fl, ?_, hkind⟩
    simp only [evaluate, h1, eq_self_iff_true, if_true, subgroupsEnum, runSubgroups, hfl]
  constructor
  · intro hdisj hlt15
    by_cases hlt3 : (domainSeqLoop setting domSeq).length < 3
    · exact hfirst (initSt m0) hlt3
    · have hs : severitiesFor setting dataset sevCfg ≠ [] := by
        rcases hdisj with h | h
        · exact h
        · omega
      have hex : ∃ p ∈ subgroupsEnum, ∃ i ∈ pyRange p.2.1 p.2.2,
          (domainSeqLoop setting domSeq).length ≤ i := by
        rcases (by omega :
            3 ≤ (domainSeqLoop setting domSeq).length ∧
              (domainSeqLoop setting domSeq).length < 7 ∨
            7 ≤ (domainSeqLoop setting domSeq).length ∧
              (domainSeqLoop setting domSeq).length < 10 ∨
            10 ≤ (domainSeqLoop setting domSeq).length ∧
              (domainSeqLoop setting domSeq).length < 12 ∨
            12 ≤ (domainSeqLoop setting domSeq).length ∧
              (domainSeqLoop setting domSeq).length < 15) with
          ⟨ha, hb⟩ | ⟨ha, hb⟩ | ⟨ha, hb⟩ | ⟨ha, hb⟩
        · exact ⟨(1, 3, 7), by decide, _, mem_pyRange.mpr ⟨ha, hb⟩, le_refl _⟩
        · exact ⟨(2, 7, 10), by decide, _, mem_pyRange.mpr ⟨ha, hb⟩, le_refl _⟩
        · exact ⟨(3, 10, 12), by decide, _, mem_pyRange.mpr ⟨ha, hb⟩, le_refl _⟩
        · exact ⟨(4, 12, 15), by decide, _, mem_pyRange.mpr ⟨ha, hb⟩, le_refl _⟩
      obtain ⟨fl, hfl, hkind⟩ := runSubgroups_err f g (domainSeqLoop setting domSeq)
        (severitiesFor setting dataset sevCfg) hs subgroupsEnum (initSt m0) hex
        (by intro p hp; fin_cases hp <;> decide)
      refine ⟨fl, ?_, hkind⟩
      simp only [evaluate, h1, eq_self_iff_true, if_true, hfl]
  · intro hmx
    have hdsl : domainSeqLoop setting domSeq = ["mixed"] := by
      simp [domainSeqLoop, hmx]
    exact ⟨hdsl, hfirst (initSt m0) (by rw [hdsl]; decide)⟩

/-- The concrete run behind the C7 counterexample: a valid non-mixed setting,
three looped domains (fewer than 15) and an empty severity sequence. -/
def c7run : Except (Fail Unit) (DriverOut Unit) :=
  evaluate "continual" "cifar10_c" ["gaussian_noise", "shot_noise", "impulse_noise"] []
    (okOracle accHalf) (okReset id) ()

/-- C7 counterexample: this configuration has fewer than 15 looped domains,
yet the run fails with `ZeroDivisionError` (the first cycle's average divides
by `len(cycle_errs) = 0`), not with `IndexError`. -/
theorem c7_counterexample :
    errKind c7run = some .zeroDivisionError ∧ errKind c7run ≠ some .indexError := by
  refine ⟨rfl, ?_⟩
  intro h
  rw [show errKind c7run = some PyErr.zeroDivisionError from rfl] at h
  simp at h

/-! ### List-sum bridging lemmas for the loss functions -/

theorem getD_of_lt {α : Type} (l : List α) (d : α) (i : ℕ) (h : i < l.length) :
    l.getD i d = l[i] := by
  simp [List.getD_eq_getElem?_getD, List.getElem?_eq_getElem h]

theorem getD_zipWith {α β γ : Type} (f : α → β → γ) (dc : γ) (da : α) (db : β) :
    ∀ (l1 : List α) (l2 : List β) (i : ℕ), i < l1.length → i < l2.length →
    (List.zipWith f l1 l2).getD i dc = f (l1.getD i da) (l2.getD i db) := by
  intro l1
  induction l1 with
  | nil => intro l2 i h1 _; simp at h1
  | cons a l1 ih =>
    intro l2 i h1 h2
    cases l2 with
    | nil => simp at h2
    | cons b l2 =>
      cases i with
      | zero => rfl
      | succ n =>
        simp only [List.zipWith_cons_cons, List.getD_cons_succ]
        exact ih l2 n (by simpa using h1) (by simpa using h2)

theorem dotQ_eq_sum : ∀ (C : ℕ) (u v : List ℚ), u.length = C → v.length = C →
    dotQ u v = ∑ c ∈ Finset.range C, u.getD c 0 * v.getD c 0 := by
  intro C
  induction C with
  | zero =>
    intro u v hu hv
    rw [List.length_eq_zero] at hu
    subst hu
    simp [dotQ]
  | succ n ih =>
    intro u v hu hv
    cases u with
    | nil => simp at hu
    | cons a u =>
      cases v with
      | nil => simp at hv
      | cons b v =>
        rw [Finset.sum_range_succ']
        simp only [List.getD_cons_succ, List.getD_cons_zero]
        rw [← ih u v (by simpa using hu) (by simpa using hv)]
        simp [dotQ, add_comm]

theorem sum_map_getD {α : Type} (f : α → ℚ) (d : α) :
    ∀ (l : List α), (l.map f).sum = ∑ i ∈ Finset.range l.length, f (l.getD i d) := by
  intro l
  induction l with
  | nil => simp
  | cons a l ih =>
    rw [List.map_cons, List.sum_cons, List.length_cons, Finset.sum_range_succ']
    simp only [List.getD_cons_succ, List.getD_cons_zero]
    rw [ih, add_comm]

theorem sum_map_range (h : ℕ → ℚ) (n : ℕ) :
    ((List.range n).map h).sum = ∑ i ∈ Finset.range n, h i := by
  induction n with
  | zero => simp
  | succ m ih =>
    rw [List.range_succ, List.map_append, List.sum_append, Finset.sum_range_succ, ih]
    simp

theorem length_softmaxRow (ex : ℚ → ℚ) (v : List ℚ) :
    (softmaxRow ex v).length = v.length := by
  simp [softmaxRow]

theorem length_logSoftmaxRow (ex lg : ℚ → ℚ) (v : List ℚ) :
    (logSoftmaxRow ex lg v).length = v.length := by
  simp [logSoftmaxRow, softmaxRow]

/-! ### C5: the symmetric cross-entropy formula -/

/-- C5: for logit tensors `x`, `x_ema` of shape (batch, classes) and any
weight `alpha`, the `i`-th entry of `SymmetricCrossEntropy(alpha)(x, x_ema)`
equals `-(1-alpha) * Σ_c softmax(x_ema)[i,c] * log_softmax(x)[i,c]
- alpha * Σ_c softmax(x)[i,c] * log_softmax(x_ema)[i,c]`, for any choice of
the tensor library's `exp` and `log` primitives. -/
theorem c5_symmetric_cross_entropy (ex lg : ℚ → ℚ) (alpha : ℚ)
    (x xEma : List (List ℚ)) (C i : ℕ)
    (hlen : x.length = xEma.length) (hi : i < x.length)
    (hxC : (x.getD i []).length = C) (heC : (xEma.getD i []).length = C) :
    (SymmetricCrossEntropy.call ex lg ⟨alpha⟩ x xEma).getD i 0 =
      -(1 - alpha) * (∑ c ∈ Finset.range C,
          (softmaxRow ex (xEma.getD i [])).getD c 0
            * (logSoftmaxRow ex lg (x.getD i [])).getD c 0)
        - alpha * (∑ c ∈ Finset.range C,
          (softmaxRow ex (x.getD i [])).getD c 0
            * (logSoftmaxRow ex lg (xEma.getD i [])).getD c 0) := by
  have l1 : (softmaxRow ex (xEma.getD i [])).length = C := by
    rw [length_softmaxRow]; exact heC
  have l2 : (logSoftmaxRow ex lg (x.getD i [])).length = C := by
    rw [length_logSoftmaxRow]; exact hxC
  have l3 : (softmaxRow ex (x.getD i [])).length = C := by
    rw [length_softmaxRow]; exact hxC
  have l4 : (logSoftmaxRow ex lg (xEma.getD i [])).length = C := by
    rw [length_logSoftmaxRow]; exact heC
  rw [SymmetricCrossEntropy.call,
    getD_zipWith _ 0 [] [] x xEma i hi (hlen ▸ hi)]
  rw [dotQ_eq_sum C _ _ l1 l2, dotQ_eq_sum C _ _ l3 l4]

/-! ### C9: the orthogonality loss -/

/-- C9: `orthogonal_loss` divides the summed squared Gram matrix by
`n*(n-1)`; the quotient is a finite rational exactly when there are at least
two prototypes; in particular for a single prototype the denominator is zero
and the unguarded division yields no finite value. -/
theorem c9_orthogonal_loss (p : List (List ℚ)) :
    ((orthogonal_loss p).isSome ↔ 2 ≤ p.length) ∧
    (∀ v : List ℚ, orthogonal_loss [v] = none) ∧
    (2 ≤ p.length →
      orthogonal_loss p = some ((∑ i ∈ Finset.range p.length,
          ∑ j ∈ Finset.range p.length, dotQ (p.getD i []) (p.getD j []) ^ 2)
        / ((p.length : ℚ) * ((p.length : ℚ) - 1)))) := by
  have hdenom : ((p.length : ℤ) * ((p.length : ℤ) - 1) = 0) ↔ p.length < 2 := by
    rcases Nat.lt_or_ge p.length 2 with h | h
    · interval_cases hl : p.length <;> simp <;> omega
    · constructor
      · intro h0
        rcases mul_eq_zero.mp h0 with h1 | h1 <;> omega
      · omega
  refine ⟨?_, ?_, ?_⟩
  · rw [orthogonal_loss]
    by_cases h : (p.length : ℤ) * ((p.length : ℤ) - 1) = 0
    · simp only [h, if_true, eq_self_iff_true, Option.isSome_none]
      constructor
      · intro hf; cases hf
      · intro h2; rw [hdenom] at h; omega
    · simp only [h, if_false, ite_false, Option.isSome_some]
      constructor
      · intro _; rw [hdenom] at h; omega
      · intro _; trivial
  · intro v
    rw [orthogonal_loss]
    simp
  · intro h2
    rw [orthogonal_loss]
    have h : ¬((p.length : ℤ) * ((p.length : ℤ) - 1) = 0) := by
      rw [hdenom]; omega
    simp only [h, if_false, ite_false, Option.some.injEq]
    have houter := sum_map_getD (fun pi => (p.map (fun pj => dotQ pi pj ^ 2)).sum) [] p
    rw [houter]
    have hcast : (((p.length : ℤ) * ((p.length : ℤ) - 1) : ℤ) : ℚ)
        = (p.length : ℚ) * ((p.length : ℚ) - 1) := by
      push_cast
      ring
    rw [hcast]
    congr 1
    refine Finset.sum_congr rfl (fun i _ => ?_)
    exact sum_map_getD (fun pj => dotQ (p.getD i []) pj ^ 2) [] p

/-! ### C10: info-max decomposition -/

/-- C10: for every probability tensor `p` of shape (samples, classes),
`info_max_loss p` equals the mean per-sample entropy of `p` minus the entropy
of the mean distribution of `p` across samples (both entropies computed, as
in the code, with the `1e-16` guard inside the logarithm), for any choice of
the library's `log` primitive. -/
theorem c10_info_max_loss (lg : ℚ → ℚ) (p : List (List ℚ)) (S C : ℕ)
    (hS : p.length = S) (hS0 : S ≠ 0) (hC : ∀ r ∈ p, r.length = C) :
    info_max_loss lg p =
      (∑ i ∈ Finset.range S, -(∑ c ∈ Finset.range C,
          (p.getD i []).getD c 0 * lg ((p.getD i []).getD c 0 + qeps))) / S
        - (-(∑ c ∈ Finset.range C,
            ((∑ i ∈ Finset.range S, (p.getD i []).getD c 0) / S)
              * lg ((∑ i ∈ Finset.range S, (p.getD i []).getD c 0) / S + qeps))) := by
  have hpne : p ≠ [] := by
    intro h
    rw [h] at hS
    simp at hS
    omega
  have hC' : (p.headD []).length = C := by
    cases p with
    | nil => exact absurd rfl hpne
    | cons r p' => exact hC r (List.mem_cons_self r p')
  have hrow : ∀ i ∈ Finset.range S, (p.getD i []).length = C := by
    intro i hi
    rw [Finset.mem_range] at hi
    rw [getD_of_lt p [] i (by omega)]
    exact hC _ (List.getElem_mem _)
  have hcol : ∀ c : ℕ,
      (p.map (fun row => row.getD c 0)).sum
        = ∑ i ∈ Finset.range S, (p.getD i []).getD c 0 := by
    intro c
    rw [sum_map_getD (fun row => row.getD c 0) [] p, hS]
  simp only [info_max_loss, entropy_loss, diversity_loss, meanDim0, hC']
  rw [sum_map_getD (fun row => -((row.map (fun q => q * lg (q + qeps))).sum)) [] p, hS]
  rw [List.length_map, hS]
  rw [List.map_map]
  rw [sum_map_range]
  simp only [Function.comp]
  congr 1
  · congr 1
    refine Finset.sum_congr rfl (fun i hi => ?_)
    congr 1
    rw [sum_map_getD (fun q => q * lg (q + qeps)) 0 (p.getD i []), hrow i hi]
  · congr 1
    refine Finset.sum_congr rfl (fun c _ => ?_)
    rw [hcol c]

/-! ### C8: the loss functions are stateless and deterministic -/

/-- C8: every loss in `utils/losses.py` is a pure function of its constructor
parameters and call arguments: two calls with equal parameters and equal
inputs return equal outputs, and (as the embedding shows) a call produces no
change to the parameters or the input tensors. -/
theorem c8_losses_stateless (ex lg : ℚ → ℚ) (pw : ℚ → ℚ → ℚ) :
    (∀ (m m' : Entropy) (x x' : List (List ℚ)), x = x' →
      Entropy.call ex lg m x = Entropy.call ex lg m' x') ∧
    (∀ (m m' : SymmetricCrossEntropy) (x x' y y' : List (List ℚ)),
      m.alpha = m'.alpha → x = x' → y = y' →
      SymmetricCrossEntropy.call ex lg m x y
        = SymmetricCrossEntropy.call ex lg m' x' y') ∧
    (∀ (m m' : AugCrossEntropy) (x x' y y' z z' : List (List ℚ)),
      m.alpha = m'.alpha → x = x' → y = y' → z = z' →
      AugCrossEntropy.call ex lg m x y z = AugCrossEntropy.call ex lg m' x' y' z') ∧
    (∀ (m m' : SoftLikelihoodRatio) (x x' : List (List ℚ)),
      m.clip = m'.clip → m.eps = m'.eps → x = x' →
      SoftLikelihoodRatio.call ex lg m x = SoftLikelihoodRatio.call ex lg m' x') ∧
    (∀ (m m' : GeneralizedCrossEntropy) (x x' : List (List ℚ))
      (t t' : Option (List ℕ)), m.q = m'.q → x = x' → t = t' →
      GeneralizedCrossEntropy.call ex pw m x t
        = GeneralizedCrossEntropy.call ex pw m' x' t') ∧
    (∀ x x' : List (List ℚ), x = x' → entropy_loss lg x = entropy_loss lg x') ∧
    (∀ x x' : List (List ℚ), x = x' → diversity_loss lg x = diversity_loss lg x') ∧
    (∀ x x' : List (List ℚ), x = x' → info_max_loss lg x = info_max_loss lg x') ∧
    (∀ x x' : List (List ℚ), x = x' → orthogonal_loss x = orthogonal_loss x') := by
  refine ⟨?_, ?_, ?_, ?_, ?_, ?_, ?_, ?_, ?_⟩
  · intro m m' x x' hx
    cases hx
    rfl
  · intro m m' x x' y y' ha hx hy
    obtain ⟨a⟩ := m
    obtain ⟨a'⟩ := m'
    cases ha
    cases hx
    cases hy
    rfl
  · intro m m' x x' y y' z z' ha hx hy hz
    obtain ⟨a⟩ := m
    obtain ⟨a'⟩ := m'
    cases ha
    cases hx
    cases hy
    cases hz
    rfl
  · intro m m' x x' hc he hx
    obtain ⟨c, e⟩ := m
    obtain ⟨c', e'⟩ := m'
    cases hc
    cases he
    cases hx
    rfl
  · intro m m' x x' t t' hq hx ht
    obtain ⟨q⟩ := m
    obtain ⟨q'⟩ := m'
    cases hq
    cases hx
    cases ht
    rfl
  · intro x x' hx; cases hx; rfl
  · intro x x' hx; cases hx; rfl
  · intro x x' hx; cases hx; rfl
  · intro x x' hx; cases hx; rfl

/-! ### Witnesses: each hypothesis-bearing claim theorem applied at a
concrete input -/

theorem c1_iteration_plan_witness :
    settingValid "continual" = true ∧
    severitiesFor "continual" "cifar10_c" [5] ≠ [] ∧
    15 ≤ (domainSeqLoop "continual" dseq15).length ∧
    (∃ out : DriverOut Unit,
      evaluate "continual" "cifar10_c" dseq15 [5] (okOracle accHalf) (okReset id) ()
        = .ok out ∧
      out.st.loaderLog = planKeys (severitiesFor "continual" "cifar10_c" [5]) ∧
      out.st.recs.map keyOf = planKeys (severitiesFor "continual" "cifar10_c" [5]) ∧
      ((severitiesFor "continual" "cifar10_c" [5]).Nodup →
        ∀ k ∈ planKeys (severitiesFor "continual" "cifar10_c" [5]),
          out.st.loaderLog.count k = 1 ∧ (out.st.recs.map keyOf).count k = 1)) :=
  ⟨by decide, by decide, by decide,
    c1_iteration_plan "continual" "cifar10_c" dseq15 [5] accHalf id ()
      (by decide) (by decide) (by decide)⟩

theorem c2_error_tracking_witness :
    settingValid "continual_mixed_domain" = true ∧
    severitiesFor "continual_mixed_domain" "cifar10_c" [5] ≠ [] ∧
    15 ≤ (domainSeqLoop "continual_mixed_domain" dseq15).length ∧
    (∃ out : DriverOut Unit,
      evaluate "continual_mixed_domain" "cifar10_c" dseq15 [5] (okOracle accHalf)
        (okReset id) () = .ok out ∧
      out.st.errs = out.st.recs.map errOf ++ out.st.tailRecs.map terrOf ∧
      out.st.cycLog.flatten = out.st.recs.map errOf ∧
      out.st.errs5 = (out.st.recs.filter sev5p).map errOf
        ++ (out.st.tailRecs.filter tsev5p).map terrOf ∧
      ("continual_mixed_domain" ≠ "continual_mixed_domain" → out.st.tailRecs = [])) :=
  ⟨by decide, by decide, by decide,
    c2_error_tracking "continual_mixed_domain" "cifar10_c" dseq15 [5] accHalf id ()
      (by decide) (by decide) (by decide)⟩

theorem c3_reported_averages_witness :
    settingValid "reset_each_shift" = true ∧
    severitiesFor "reset_each_shift" "cifar10_c" [5] ≠ [] ∧
    15 ≤ (domainSeqLoop "reset_each_shift" dseq15).length ∧
    (∃ out : DriverOut Unit,
      evaluate "reset_each_shift" "cifar10_c" dseq15 [5] (okOracle accHalf)
        (okReset id) () = .ok out ∧
      out.st.cycLog.flatten = out.st.recs.map errOf ∧
      out.st.cycAvgs = out.st.cycLog.map mean ∧
      out.st.sgCycAvgs.flatten = out.st.cycAvgs ∧
      (∀ l ∈ out.st.sgCycAvgs, l.length = 2) ∧
      out.st.sgAvgs = out.st.sgCycAvgs.map mean ∧
      out.st.sgAvgs.length = 5 ∧
      out.st.cycLog.length = 10 ∧
      out.totalAvg = mean out.st.sgAvgs) :=
  ⟨by decide, by decide, by decide,
    c3_reported_averages "reset_each_shift" "cifar10_c" dseq15 [5] accHalf id ()
      (by decide) (by decide) (by decide)⟩

theorem c4_setting_validation_witness :
    settingValid "bogus" = false ∧
    (evaluate "bogus" "cifar10_c" dseq15 [5] (okOracle accHalf) (okReset id) () =
      .error ⟨.assertionError, initSt ()⟩ ∧ (initSt ()).loaderLog = [] ∧
      (initSt ()).recs = []) :=
  ⟨by decide,
    (c4_setting_validation "bogus" "cifar10_c" dseq15 [5] accHalf id ()).2.1
      (by decide)⟩

theorem c5_symmetric_cross_entropy_witness :
    ([[(0 : ℚ), 1]] : List (List ℚ)).length = ([[(1 : ℚ), 0]] : List (List ℚ)).length ∧
    0 < ([[(0 : ℚ), 1]] : List (List ℚ)).length ∧
    (([[(0 : ℚ), 1]] : List (List ℚ)).getD 0 []).length = 2 ∧
    (([[(1 : ℚ), 0]] : List (List ℚ)).getD 0 []).length = 2 ∧
    (SymmetricCrossEntropy.call id id ⟨1 / 3⟩ [[(0 : ℚ), 1]] [[(1 : ℚ), 0]]).getD 0 0 =
      -(1 - 1 / 3) * (∑ c ∈ Finset.range 2,
          (softmaxRow id (([[(1 : ℚ), 0]] : List (List ℚ)).getD 0 [])).getD c 0
            * (logSoftmaxRow id id (([[(0 : ℚ), 1]] : List (List ℚ)).getD 0 [])).getD c 0)
        - (1 / 3) * (∑ c ∈ Finset.range 2,
          (softmaxRow id (([[(0 : ℚ), 1]] : List (List ℚ)).getD 0 [])).getD c 0
            * (logSoftmaxRow id id (([[(1 : ℚ), 0]] : List (List ℚ)).getD 0 [])).getD c 0) :=
  ⟨rfl, by decide, rfl, rfl,
    c5_symmetric_cross_entropy id id (1 / 3) [[0, 1]] [[1, 0]] 2 0 rfl (by decide) rfl rfl⟩

theorem c6_reset_recovery_witness :
    (evaluate "continual" "cifar10_c" dseq15 [5] (okOracle accHalf)
        (fun _ => .error .attributeError) () =
      evaluate "continual" "cifar10_c" dseq15 [5] (okOracle accHalf) (fun s => .ok s) ()) ∧
    (PyErr.indexError ≠ PyErr.attributeError ∧ settingValid "continual" = true ∧
      evaluate "continual" "cifar10_c" dseq15 [5] (okOracle accHalf)
        (fun _ => .error .indexError) () = .error ⟨.indexError, initSt ()⟩) ∧
    (settingValid "continual" = true ∧ domainSeqLoop "continual" dseq15 ≠ [] ∧
      severitiesFor "continual" "cifar10_c" [5] ≠ [] ∧
      ∃ fl, evaluate "continual" "cifar10_c" dseq15 [5]
        (fun _ => .error PyErr.indexError) (fun s => .ok s) () = .error fl ∧
        fl.err = PyErr.indexError) :=
  ⟨(c6_reset_recovery "continual" "cifar10_c" dseq15 [5] (okOracle accHalf) ()
      PyErr.indexError).1,
    ⟨by decide, by decide,
      (c6_reset_recovery "continual" "cifar10_c" dseq15 [5] (okOracle accHalf) ()
        PyErr.indexError).2.1 (by decide) (by decide)⟩,
    ⟨by decide, by decide, by decide,
      (c6_reset_recovery "continual" "cifar10_c" dseq15 [5] (okOracle accHalf) ()
        PyErr.indexError).2.2 (by decide) (by decide) (by decide)⟩⟩

theorem c7_short_domain_sequence_witness :
    settingValid "mixed_domains" = true ∧
    containsStr "mixed_domains" "mixed_domains" = true ∧
    (domainSeqLoop "mixed_domains" dseq15 = ["mixed"] ∧
      ∃ fl, evaluate "mixed_domains" "cifar10_c" dseq15 [5] (okOracle accHalf)
        (okReset id) () = .error fl ∧ fl.err = .indexError) :=
  ⟨by decide, by decide,
    (c7_short_domain_sequence "mixed_domains" "cifar10_c" dseq15 [5] accHalf id ()
      (by decide)).2 (by decide)⟩

theorem c8_losses_stateless_witness :
    (SymmetricCrossEntropy.mk (1 / 2)).alpha = (SymmetricCrossEntropy.mk (1 / 2)).alpha ∧
    ([[(1 : ℚ), 2]] : List (List ℚ)) = [[(1 : ℚ), 2]] ∧
    ([[(0 : ℚ), 1]] : List (List ℚ)) = [[(0 : ℚ), 1]] ∧
    SymmetricCrossEntropy.call id id ⟨1 / 2⟩ [[(1 : ℚ), 2]] [[(0 : ℚ), 1]] =
      SymmetricCrossEntropy.call id id ⟨1 / 2⟩ [[(1 : ℚ), 2]] [[(0 : ℚ), 1]] :=
  ⟨rfl, rfl, rfl,
    (c8_losses_stateless id id (fun a _ => a)).2.1 ⟨1 / 2⟩ ⟨1 / 2⟩
      [[(1 : ℚ), 2]] [[(1 : ℚ), 2]] [[(0 : ℚ), 1]] [[(0 : ℚ), 1]] rfl rfl rfl⟩

/-- Two orthonormal prototype rows used by the witness of C9. -/
def protoEx : List (List ℚ) := [[1, 0], [0, 1]]

theorem c9_orthogonal_loss_witness :
    2 ≤ protoEx.length ∧
    orthogonal_loss protoEx = some ((∑ i ∈ Finset.range protoEx.length,
        ∑ j ∈ Finset.range protoEx.length,
        dotQ (protoEx.getD i []) (protoEx.getD j []) ^ 2)
      / ((protoEx.length : ℚ) * ((protoEx.length : ℚ) - 1))) :=
  ⟨by decide, (c9_orthogonal_loss protoEx).2.2 (by decide)⟩

/-- A one-sample two-class probability tensor used by the witness of C10. -/
def pEx : List (List ℚ) := [[1 / 2, 1 / 2]]

theorem c10_info_max_loss_witness :
    pEx.length = 1 ∧ (1 : ℕ) ≠ 0 ∧ (∀ r ∈ pEx, r.length = 2) ∧
    info_max_loss id pEx =
      (∑ i ∈ Finset.range 1, -(∑ c ∈ Finset.range 2,
          (pEx.getD i []).getD c 0 * id ((pEx.getD i []).getD c 0 + qeps))) / (1 : ℕ)
        - (-(∑ c ∈ Finset.range 2,
            ((∑ i ∈ Finset.range 1, (pEx.getD i []).getD c 0) / (1 : ℕ))
              * id ((∑ i ∈ Finset.range 1, (pEx.getD i []).getD c 0) / (1 : ℕ) + qeps))) :=
  ⟨rfl, by decide, by decide,
    c10_info_max_loss id pEx 1 2 rfl (by decide) (by decide)⟩

end TTA
